import Mathlib

/-!
Shallow embedding of the PDF Knowledge Graph generator's core pipeline
(`app.py`, class `KnowledgeGraphGenerator`).

External collaborators (spaCy, the NLTK tokenizer and stopword list, TextBlob,
the two PDF text backends, and Python's per-process salted `hash`) are modelled
as oracle function parameters.  The repository's own logic — text
normalisation, entity/keyword/relationship filtering, graph building with the
documented networkx `add_node`/`add_edge` attribute-update semantics, and the
render sanitiser — is translated directly from the source.
-/

/-- Model of Python's whitespace class (`\s`, `str.split()`, `str.strip()`):
space, tab, newline, carriage return, vertical tab, form feed. -/
def isPySpace (c : Char) : Bool :=
  c = ' ' || c = '\t' || c = '\n' || c = '\r' || c = '\x0b' || c = '\x0c'

/-- Model of Python's word-character class `\w`: alphanumeric or underscore. -/
def isWordChar (c : Char) : Bool := c.isAlphanum || c = '_'

/-- Characters kept by the second regex of `preprocess_text`
(`re.sub(r"[^\w\s\.\,\!\?\;\:]", "", txt)` keeps exactly these). -/
def isKept (c : Char) : Bool :=
  isWordChar c || isPySpace c ||
    c = '.' || c = ',' || c = '!' || c = '?' || c = ';' || c = ':'

/-- `re.sub(r"\s+", " ", ·)`: replace every maximal whitespace run by a single
space. -/
def collapseWS : List Char → List Char
  | [] => []
  | [c] => if isPySpace c then [' '] else [c]
  | c :: d :: cs =>
    if isPySpace c && isPySpace d then collapseWS (d :: cs)
    else (if isPySpace c then ' ' else c) :: collapseWS (d :: cs)

/-- Helper for Python `str.split()`: accumulates the current word (reversed). -/
def splitAux : List Char → List Char → List (List Char)
  | [], acc => if acc.isEmpty then [] else [acc.reverse]
  | c :: cs, acc =>
    if isPySpace c then
      if acc.isEmpty then splitAux cs [] else acc.reverse :: splitAux cs []
    else splitAux cs (c :: acc)

/-- Python `str.split()` with no argument: split on whitespace runs, dropping
empty pieces. -/
def pyWords (l : List Char) : List (List Char) := splitAux l []

/-- `" ".join(words)`. -/
def joinWords : List (List Char) → List Char
  | [] => []
  | [w] => w
  | w :: w2 :: ws => w ++ ' ' :: joinWords (w2 :: ws)

/-- `KnowledgeGraphGenerator.preprocess_text` at the character-list level:
empty text is returned as is; otherwise collapse whitespace, strip characters
outside `\w`, `\s` and `. , ! ? ; :`, then `" ".join(txt.split())`. -/
def normalizeChars (l : List Char) : List Char :=
  if l = [] then [] else joinWords (pyWords ((collapseWS l).filter isKept))

/-- `KnowledgeGraphGenerator.preprocess_text` (the Text Normalizer). -/
def preprocess_text (s : String) : String := ⟨normalizeChars s.data⟩

/-- A spaCy entity span as consumed by `extract_entities`:
`{text, label, start_char, end_char}`. -/
structure EntitySpan where
  text : String
  label : String
  start_char : Nat
  end_char : Nat
deriving DecidableEq

/-- The allow-list `keep` of `extract_entities`. -/
def keepLabels : List String :=
  ["PERSON", "ORG", "GPE", "PRODUCT", "EVENT", "WORK_OF_ART"]

/-- `KnowledgeGraphGenerator.extract_entities`, with the spaCy model as an
oracle returning the document's entity spans. -/
def extract_entities (nlp_ents : String → List EntitySpan) (text : String) :
    List EntitySpan :=
  if text = "" then []
  else (nlp_ents text).filter (fun ent => decide (ent.label ∈ keepLabels))

/-- Python `str.lower()`. -/
def pyLower (s : String) : String := ⟨s.data.map Char.toLower⟩

/-- Python `str.isalnum()`: nonempty and every character alphanumeric. -/
def pyIsAlnum (s : String) : Bool := !s.data.isEmpty && s.data.all Char.isAlphanum

/-- The filtered token list `words` of `extract_keywords`:
`[w for w in tokens if w.isalnum() and w not in stop and len(w) > 3]`,
with `nltk.word_tokenize` as the `tokenize` oracle. -/
def kwWords (tokenize : String → List String) (stop : List String)
    (text : String) : List String :=
  (tokenize (pyLower text)).filter
    (fun w => pyIsAlnum w && !(decide (w ∈ stop)) && decide (3 < w.length))

/-- Insertion-ordered distinct keys of `collections.Counter(words)`. -/
def counterKeys (ws : List String) : List String :=
  ws.foldl (fun acc w => if w ∈ acc then acc else acc ++ [w]) []

/-- Stable descending insertion (by count): an element is placed before the
first strictly-smaller element, after earlier equal-count elements. -/
def insertDesc (cnt : String → Nat) (w : String) : List String → List String
  | [] => [w]
  | x :: xs => if cnt w < cnt x then x :: insertDesc cnt w xs else w :: x :: xs

/-- Stable sort, descending by `cnt`; extensionally equal to CPython's stable
`sorted(keys, key=cnt, reverse=True)` used by `Counter.most_common`. -/
def sortDescBy (cnt : String → Nat) (l : List String) : List String :=
  l.foldr (insertDesc cnt) []

/-- `KnowledgeGraphGenerator.extract_keywords`: filter tokens of the lowered
text, count, and return the `top_k` most common (descending count, ties by
first occurrence). -/
def extract_keywords (tokenize : String → List String) (stop : List String)
    (text : String) (top_k : Nat) : List String :=
  if text = "" then []
  else
    let words := kwWords tokenize stop text
    (sortDescBy (fun w => words.count w) (counterKeys words)).take top_k

/-- A dependency-parsed spaCy token: surface text, dependency relation,
part-of-speech of the token, and the index of its syntactic head. -/
structure SToken where
  text : String
  dep : String
  pos : String
  headIdx : Nat
deriving DecidableEq

/-- A relationship triple `{subject, predicate, object, type}`. -/
structure RelTriple where
  subject : String
  predicate : String
  object : String
  type : String
deriving DecidableEq

/-- spaCy `token.children` of the token at index `i`: tokens whose head index
is `i`, excluding the token itself. -/
def childrenOf (doc : List SToken) (i : Nat) : List SToken :=
  (doc.enum.filter (fun p => !(p.1 == i) && (p.2.headIdx == i))).map Prod.snd

/-- `KnowledgeGraphGenerator.extract_relationships`, with the spaCy dependency
parse as an oracle: for each `nsubj` token with a `VERB` head, pair it with
each `dobj`/`pobj` child of that head, skipping falsy or equal
subject/object. -/
def extract_relationships (nlp : String → List SToken) (text : String) :
    List RelTriple :=
  if text = "" then []
  else
    let doc := nlp text
    doc.flatMap (fun token =>
      match doc[token.headIdx]? with
      | none => []
      | some hd =>
        if token.dep == "nsubj" && hd.pos == "VERB" then
          (childrenOf doc token.headIdx).filterMap (fun child =>
            if child.dep == "dobj" || child.dep == "pobj" then
              if !(token.text == "") && !(child.text == "") &&
                  !(token.text == child.text) then
                some ⟨token.text, hd.text, child.text, "SVO"⟩
              else none
            else none)
        else [])

/-- networkx node attribute dict as used by this program: the keys ever
written are `label`, `type`, `size` and `__safe_id__`. -/
structure NodeData where
  label : Option String
  type : Option String
  size : Option Nat
  safe_id : Option String
deriving DecidableEq

/-- networkx edge attribute dict as used by this program: keys `label` and
`type`. -/
structure EdgeData where
  label : Option String
  type : Option String
deriving DecidableEq

/-- An `nx.Graph` as used by this program: insertion-ordered nodes keyed by
string with attribute data, and undirected edges (stored once per unordered
pair, in first-insertion order) with attribute data. -/
structure KGraph where
  nodes : List (String × NodeData)
  edges : List (String × String × EdgeData)
deriving DecidableEq

/-- A freshly created node's attribute dict (no attributes set). -/
def emptyNodeData : NodeData := ⟨none, none, none, none⟩

/-- `G.add_node(e["text"], label=..., type="entity", size=20)`: networkx
updates the attribute dict when the node already exists, otherwise appends a
new node. -/
def addEntityNode (nodes : List (String × NodeData)) (e : EntitySpan) :
    List (String × NodeData) :=
  if nodes.any (fun p => p.1 == e.text) then
    nodes.map (fun p =>
      if p.1 == e.text then
        (p.1, ⟨some e.label, some "entity", some 20, p.2.safe_id⟩)
      else p)
  else
    nodes ++ [(e.text, ⟨some e.label, some "entity", some 20, none⟩)]

/-- networkx `add_edge` first adds any missing endpoint as an attribute-less
node. -/
def ensureNode (nodes : List (String × NodeData)) (k : String) :
    List (String × NodeData) :=
  if nodes.any (fun p => p.1 == k) then nodes else nodes ++ [(k, emptyNodeData)]

/-- Equality of unordered node pairs, as used by `nx.Graph` edge lookup. -/
def matchesPair (u v a b : String) : Bool :=
  (u == a && v == b) || (u == b && v == a)

/-- `G.add_edge(u, v, label=..., type=...)` on an undirected graph: if the
unordered pair already has an edge its attribute dict is updated, otherwise
the edge is appended. -/
def addEdge (edges : List (String × String × EdgeData)) (u v : String)
    (d : EdgeData) : List (String × String × EdgeData) :=
  if edges.any (fun e => matchesPair e.1 e.2.1 u v) then
    edges.map (fun e => if matchesPair e.1 e.2.1 u v then (e.1, e.2.1, d) else e)
  else edges ++ [(u, v, d)]

/-- One iteration of the relationship loop of `build_graph`:
`G.add_edge(r["subject"], r["object"], label=r["predicate"],
type="relationship")` (endpoints added first if missing). -/
def addRelStep
    (acc : List (String × NodeData) × List (String × String × EdgeData))
    (r : RelTriple) :
    List (String × NodeData) × List (String × String × EdgeData) :=
  (ensureNode (ensureNode acc.1 r.subject) r.object,
   addEdge acc.2 r.subject r.object ⟨some r.predicate, some "relationship"⟩)

/-- `KnowledgeGraphGenerator.build_graph`: start from an empty `nx.Graph`,
add one node per entity, then one edge per relationship triple. -/
def build_graph (entities : List EntitySpan) (rels : List RelTriple) : KGraph :=
  let nodes1 := entities.foldl addEntityNode []
  let acc := rels.foldl addRelStep (nodes1, [])
  ⟨acc.1, acc.2⟩

/-- The `label` attribute of the node keyed by `t` in a node list, if any. -/
def nodesLabel (nodes : List (String × NodeData)) (t : String) : Option String :=
  (nodes.find? (fun p => p.1 == t)).bind (fun p => p.2.label)

/-- The `label` attribute of the graph node keyed by `t`, if any. -/
def getNodeLabel (g : KGraph) (t : String) : Option String :=
  nodesLabel g.nodes t

/-- The stored edges of `g` whose unordered endpoint pair is `{a, b}`. -/
def edgeEntriesFor (g : KGraph) (a b : String) :
    List (String × String × EdgeData) :=
  g.edges.filter (fun e => matchesPair e.1 e.2.1 a b)

/-- The triples of `rels` whose unordered subject/object pair is `{a, b}`. -/
def relsFor (rels : List RelTriple) (a b : String) : List RelTriple :=
  rels.filter (fun r => matchesPair r.subject r.object a b)

/-- Python `str.strip()`. -/
def pyStrip (s : String) : String :=
  ⟨((s.data.dropWhile isPySpace).reverse.dropWhile isPySpace).reverse⟩

/-- `KnowledgeGraphGenerator._safe_id` with the default `maxlen=60`:
`(str(x).strip() or "unknown")[:60]`. -/
def safe_id (x : String) : String :=
  let s := pyStrip x
  let s2 := if s = "" then "unknown" else s
  ⟨s2.data.take 60⟩

/-- `KnowledgeGraphGenerator._safe_label` with the default `maxlen=30`. -/
def safe_label (x : String) : String :=
  let s := pyStrip x
  if s.data.length ≤ 30 then s else ⟨s.data.take 29 ++ ['…']⟩

/-- `KnowledgeGraphGenerator._node_color`: fixed category → colour table with
a default. -/
def node_color (label : String) : String :=
  if label = "PERSON" then "#ff7f0e"
  else if label = "ORG" then "#2ca02c"
  else if label = "GPE" then "#d62728"
  else if label = "PRODUCT" then "#9467bd"
  else if label = "EVENT" then "#8c564b"
  else if label = "WORK_OF_ART" then "#e377c2"
  else "#1f77b4"

/-- A `streamlit_agraph` `Node(id, label, size, color)`. -/
structure PNode where
  id : String
  label : String
  size : Nat
  color : String
deriving DecidableEq

/-- A `streamlit_agraph` `Edge(source, target, label, color)`. -/
structure PEdge where
  source : String
  target : String
  label : String
  color : String
deriving DecidableEq

/-- The `streamlit_agraph` `Config` constructed by `make_agraph_payload`. -/
structure AConfig where
  height : Nat
  width : Nat
  directed : Bool
  physics : Bool
  hierarchical : Bool
deriving DecidableEq

/-- The constant `Config(height=600, width=1000, directed=False,
physics=True, hierarchical=False)`. -/
def agraphConfig : AConfig := ⟨600, 1000, false, true, false⟩

/-- The node loop of `make_agraph_payload`, parameterised by Python's
per-process salted `hash` on `(str, int)` pairs (`h`; `& 0xffff` is `% 2^16`).
Given the remaining nodes and the current `seen_ids` (as an
insertion-ordered set), returns the emitted payload nodes and the mutated
graph-node list (each node annotated with its `__safe_id__`). -/
def sanitizeNodes (h : String → Nat → Nat) :
    List (String × NodeData) → List String →
      List PNode × List (String × NodeData)
  | [], _ => ([], [])
  | (n, d) :: rest, seen =>
    let nid0 := safe_id n
    let nid :=
      if nid0 ∈ seen then nid0 ++ "_" ++ toString (h nid0 seen.length % 65536)
      else nid0
    let seen2 := if nid ∈ seen then seen else seen ++ [nid]
    let r := sanitizeNodes h rest seen2
    (⟨nid, safe_label n, d.size.getD 18, node_color (d.label.getD "default")⟩
        :: r.1,
     (n, { d with safe_id := some nid }) :: r.2)

/-- Python falsiness of `su`/`sv` in the edge loop: `None` or `""`. -/
def isFalsyOptStr (o : Option String) : Bool :=
  match o with
  | none => true
  | some s => s == ""

/-- `KnowledgeGraphGenerator.make_agraph_payload`: early-return on an empty
graph; otherwise run the node loop (which also mutates the graph's node
attributes), then emit an edge per stored edge whose sanitized endpoints are
both truthy and distinct.  Returns the payload and the mutated graph. -/
def make_agraph_payload (h : String → Nat → Nat) (g : KGraph) :
    (List PNode × List PEdge × Option AConfig) × KGraph :=
  if g.nodes.length = 0 then (([], [], none), g)
  else
    let r := sanitizeNodes h g.nodes []
    let g2 : KGraph := ⟨r.2, g.edges⟩
    let pedges := g.edges.filterMap (fun e =>
      let su := (r.2.find? (fun p => p.1 == e.1)).bind (fun p => p.2.safe_id)
      let sv := (r.2.find? (fun p => p.1 == e.2.1)).bind (fun p => p.2.safe_id)
      if isFalsyOptStr su || isFalsyOptStr sv || su == sv then none
      else
        match su, sv with
        | some a, some b =>
          some ⟨a, b, safe_label (e.2.2.label.getD ""), "#666666"⟩
        | _, _ => none)
    ((r.1, pedges, some agraphConfig), g2)

/-- The payload nodes produced by `make_agraph_payload`. -/
def payloadNodes (h : String → Nat → Nat) (g : KGraph) : List PNode :=
  (make_agraph_payload h g).1.1

/-- The payload edges produced by `make_agraph_payload`. -/
def payloadEdges (h : String → Nat → Nat) (g : KGraph) : List PEdge :=
  (make_agraph_payload h g).1.2.1

/-- The (possibly mutated) graph after `make_agraph_payload` runs. -/
def payloadGraph (h : String → Nat → Nat) (g : KGraph) : KGraph :=
  (make_agraph_payload h g).2

/-- The identifiers of the payload nodes, in emission order. -/
def payloadIds (h : String → Nat → Nat) (g : KGraph) : List String :=
  (payloadNodes h g).map (fun p => p.id)

/-- `true` iff the node loop never re-assigns an identifier that is already
in `seen_ids`: every hash-disambiguated identifier is fresh.  Mirrors the
`seen_ids` evolution of `sanitizeNodes`. -/
def freshRun (h : String → Nat → Nat) :
    List (String × NodeData) → List String → Bool
  | [], _ => true
  | (n, _) :: rest, seen =>
    let nid0 := safe_id n
    if nid0 ∈ seen then
      let nid := nid0 ++ "_" ++ toString (h nid0 seen.length % 65536)
      !(decide (nid ∈ seen)) && freshRun h rest (seen ++ [nid])
    else freshRun h rest (seen ++ [nid0])

/-- The mutable fields of a `KnowledgeGraphGenerator`. -/
structure GenState where
  text : String
  entities : List EntitySpan
  relationships : List RelTriple
  keywords : List String
  graph : KGraph
deriving DecidableEq

/-- `KnowledgeGraphGenerator.extract_text_from_pdf`, with the two PDF text
backends as oracles (`none` models the backend raising): on double failure the
method returns `None` before the `self.text = text` assignment, leaving the
stored text untouched. -/
def extract_text_from_pdf {α : Type} (plumber pypdf2 : α → Option String)
    (self : GenState) (f : α) : Option String × GenState :=
  match plumber f with
  | some t => (some t, { self with text := t })
  | none =>
    match pypdf2 f with
    | some t => (some t, { self with text := t })
    | none => (none, self)

/-- The dict returned by `KnowledgeGraphGenerator.analyze_text` for non-empty
text.  The mean word length is modelled as an exact rational; sentiment and
subjectivity come from the TextBlob oracle. -/
structure TextStats where
  word_count : Nat
  char_count : Nat
  sentence_count : Nat
  avg_word_length : Rat
  sentiment : Rat
  subjectivity : Rat
deriving DecidableEq

/-- `KnowledgeGraphGenerator.analyze_text`, with `sent_tokenize` and the two
TextBlob sentiment scalars as oracles; the empty dict is modelled as
`none`. -/
def analyze_text (sent_tokenize : String → List String)
    (pol subj : String → Rat) (text : String) : Option TextStats :=
  if text = "" then none
  else
    let ws := pyWords text.data
    some ⟨ws.length, text.data.length, (sent_tokenize text).length,
          (((ws.map List.length).sum : Nat) : Rat) / ((ws.length : Nat) : Rat),
          pol text, subj text⟩

/-! ### Helper lemmas about node lookup under graph-building operations -/

theorem nodesLabel_map_update (nodes : List (String × NodeData)) (k t : String)
    (f : NodeData → NodeData) (h : k ≠ t) :
    nodesLabel (nodes.map (fun p => if p.1 == k then (p.1, f p.2) else p)) t =
      nodesLabel nodes t := by
  unfold nodesLabel
  rw [List.find?_map]
  have hcomp : ((fun p : String × NodeData => p.1 == t) ∘
      (fun p : String × NodeData => if p.1 == k then (p.1, f p.2) else p)) =
      (fun p : String × NodeData => p.1 == t) := by
    funext p
    simp only [Function.comp]
    split <;> rfl
  rw [hcomp]
  cases hf : nodes.find? (fun p => p.1 == t) with
  | none => rfl
  | some p =>
    have hpt : p.1 = t := by
      have := List.find?_some hf
      simpa using this
    have hpk : p.1 ≠ k := by
      rw [hpt]
      exact Ne.symm h
    simp [hpk]

theorem nodesLabel_append_single_ne (nodes : List (String × NodeData))
    (k t : String) (d : NodeData) (h : k ≠ t) :
    nodesLabel (nodes ++ [(k, d)]) t = nodesLabel nodes t := by
  unfold nodesLabel
  rw [List.find?_append]
  cases hf : nodes.find? (fun p => p.1 == t) with
  | some p => rfl
  | none =>
    have : ((k, d).1 == t) = false := beq_eq_false_iff_ne.mpr h
    simp [List.find?, this]

theorem nodesLabel_append_single_eq (nodes : List (String × NodeData))
    (t : String) (d : NodeData)
    (h : nodes.find? (fun p => p.1 == t) = none) :
    nodesLabel (nodes ++ [(t, d)]) t = d.label := by
  unfold nodesLabel
  rw [List.find?_append, h]
  simp [List.find?]

theorem nodesLabel_addEntityNode_ne (nodes : List (String × NodeData))
    (e : EntitySpan) (t : String) (h : e.text ≠ t) :
    nodesLabel (addEntityNode nodes e) t = nodesLabel nodes t := by
  unfold addEntityNode
  split
  · exact nodesLabel_map_update nodes e.text t
      (fun d => ⟨some e.label, some "entity", some 20, d.safe_id⟩) h
  · exact nodesLabel_append_single_ne nodes e.text t _ h

theorem nodesLabel_addEntityNode_eq (nodes : List (String × NodeData))
    (e : EntitySpan) :
    nodesLabel (addEntityNode nodes e) e.text = some e.label := by
  unfold addEntityNode
  split
  case isTrue hany =>
    unfold nodesLabel
    rw [List.find?_map]
    have hcomp : ((fun p : String × NodeData => p.1 == e.text) ∘
        (fun p : String × NodeData =>
          if p.1 == e.text then
            (p.1, (⟨some e.label, some "entity", some 20, p.2.safe_id⟩ : NodeData))
          else p)) =
        (fun p : String × NodeData => p.1 == e.text) := by
      funext p
      simp only [Function.comp]
      split <;> rfl
    rw [hcomp]
    have hsome : (nodes.find? (fun p => p.1 == e.text)).isSome := by
      rw [List.find?_isSome]
      simpa using hany
    cases hf : nodes.find? (fun p => p.1 == e.text) with
    | none => rw [hf] at hsome; simp at hsome
    | some p =>
      have hpt : p.1 = e.text := by
        have := List.find?_some hf
        simpa using this
      simp [hpt]
  case isFalse hany =>
    apply nodesLabel_append_single_eq
    rw [List.find?_eq_none]
    intro p hp
    simp only [List.any_eq_true, not_exists, not_and] at hany
    intro hb
    exact absurd hb (by simpa using hany p hp)

theorem nodesLabel_ensureNode (nodes : List (String × NodeData)) (k t : String) :
    nodesLabel (ensureNode nodes k) t = nodesLabel nodes t := by
  unfold ensureNode
  split
  case isTrue => rfl
  case isFalse hany =>
    by_cases hkt : k = t
    · subst hkt
      have hnone : nodes.find? (fun p => p.1 == k) = none := by
        rw [List.find?_eq_none]
        intro p hp
        simp only [List.any_eq_true, not_exists, not_and] at hany
        intro hb
        exact absurd hb (by simpa using hany p hp)
      rw [nodesLabel_append_single_eq nodes k emptyNodeData hnone]
      unfold nodesLabel
      rw [hnone]
      rfl
    · exact nodesLabel_append_single_ne nodes k t _ hkt

theorem nodesLabel_relPhase (t : String) (rels : List RelTriple)
    (acc : List (String × NodeData) × List (String × String × EdgeData)) :
    nodesLabel (rels.foldl addRelStep acc).1 t = nodesLabel acc.1 t := by
  induction rels generalizing acc with
  | nil => rfl
  | cons r rels ih =>
    rw [List.foldl_cons, ih]
    show nodesLabel (ensureNode (ensureNode acc.1 r.subject) r.object) t = _
    rw [nodesLabel_ensureNode, nodesLabel_ensureNode]

theorem nodesLabel_entityPhase (es : List EntitySpan)
    (acc : List (String × NodeData)) (t : String) :
    nodesLabel (es.foldl addEntityNode acc) t =
      ((es.filter (fun e => e.text == t)).getLast?.map
        (fun e => some e.label)).getD (nodesLabel acc t) := by
  induction es generalizing acc with
  | nil => rfl
  | cons e es ih =>
    rw [List.foldl_cons, ih]
    cases hb : (e.text == t) with
    | false =>
      have hne : e.text ≠ t := by simpa using hb
      rw [List.filter_cons_of_neg (by simpa using hb),
        nodesLabel_addEntityNode_ne acc e t hne]
    | true =>
      have het : e.text = t := by simpa using hb
      rw [List.filter_cons_of_pos (by simpa using hb)]
      subst het
      rw [nodesLabel_addEntityNode_eq acc e]
      cases hfe : es.filter (fun x => x.text == e.text) with
      | nil => simp
      | cons f fs =>
        rw [List.getLast?_cons_cons]
        cases hl : (f :: fs).getLast? with
        | none => exact absurd hl (by simp)
        | some x => simp [hl]

/-! ### Claim theorems: C1, C5, C6, C8 (first batch) -/

/-- C1 (corrected to last-seen): in the Graph Builder, for every entity
sequence, relationship sequence and surface text, the built graph's node for
that text carries the category of the **latest** entity in the sequence with
that text (networkx `add_node` updates the attributes of an existing node),
and no node label exists for texts never seen as entities. -/
theorem C1_last_category_wins (es : List EntitySpan) (rels : List RelTriple)
    (t : String) :
    getNodeLabel (build_graph es rels) t =
      ((es.filter (fun e => e.text == t)).getLast?).map (fun e => e.label) := by
  have h1 : getNodeLabel (build_graph es rels) t =
      nodesLabel (rels.foldl addRelStep (es.foldl addEntityNode [], [])).1 t := rfl
  rw [h1, nodesLabel_relPhase, nodesLabel_entityPhase]
  cases (es.filter (fun e => e.text == t)).getLast? <;> simp [nodesLabel]

/-- C1 counterexample: with the same surface text "A" tagged PERSON first and
ORG second, the built node's category is ORG, not the first-seen PERSON the
claim asserts. -/
theorem C1_counterexample :
    getNodeLabel (build_graph [⟨"A", "PERSON", 0, 1⟩, ⟨"A", "ORG", 0, 1⟩] []) "A"
        = some "ORG" ∧
      getNodeLabel (build_graph [⟨"A", "PERSON", 0, 1⟩, ⟨"A", "ORG", 0, 1⟩] []) "A"
        ≠ some "PERSON" := by
  constructor
  · decide
  · decide

/-- C5: for empty text, every extraction stage returns its designated empty
value for every oracle (hence without consulting the NLP model, tokenizer,
sentence splitter or sentiment scorer): entities `[]`, keywords `[]`,
relationships `[]`, analytics `none` (the empty dict); all are total
functions, so none raises. -/
theorem C5_empty_input_identity
    (nlpE : String → List EntitySpan) (tok : String → List String)
    (stop : List String) (k : Nat) (nlpR : String → List SToken)
    (sentTok : String → List String) (pol subj : String → Rat) :
    extract_entities nlpE "" = [] ∧ extract_keywords tok stop "" k = [] ∧
      extract_relationships nlpR "" = [] ∧ analyze_text sentTok pol subj "" = none :=
  ⟨rfl, rfl, rfl, rfl⟩

/-- C6: every triple produced by the Relationship Extractor has
`subject ≠ object` (case-sensitive), for every dependency parse and input
text: the extractor's guard `subj != obj` makes self-relations impossible. -/
theorem C6_no_self_relation (nlp : String → List SToken) (text : String)
    (r : RelTriple) (hr : r ∈ extract_relationships nlp text) :
    r.subject ≠ r.object := by
  unfold extract_relationships at hr
  split at hr
  · simp at hr
  · simp only [List.mem_flatMap] at hr
    obtain ⟨token, -, hmem⟩ := hr
    split at hmem
    · simp at hmem
    · split at hmem
      · simp only [List.mem_filterMap] at hmem
        obtain ⟨child, -, hsome⟩ := hmem
        split at hsome
        · split at hsome
          case isTrue hguard =>
            injection hsome with hsome
            subst hsome
            simp only [Bool.and_eq_true, Bool.not_eq_true', beq_eq_false_iff_ne]
              at hguard
            exact hguard.2
          case isFalse => exact absurd hsome (by simp)
        · exact absurd hsome (by simp)
      · simp at hmem

/-- C6 witness: a concrete parse with subject "Alice", verb "met", object
"Bob" produces a triple, and the theorem applies to it. -/
theorem C6_witness :
    (⟨"Alice", "met", "Bob", "SVO"⟩ : RelTriple) ∈
        extract_relationships
          (fun _ => [⟨"met", "ROOT", "VERB", 0⟩, ⟨"Alice", "nsubj", "NOUN", 0⟩,
            ⟨"Bob", "dobj", "NOUN", 0⟩]) "t" ∧
      (⟨"Alice", "met", "Bob", "SVO"⟩ : RelTriple).subject ≠
        (⟨"Alice", "met", "Bob", "SVO"⟩ : RelTriple).object :=
  ⟨by decide, C6_no_self_relation
    (fun _ => [⟨"met", "ROOT", "VERB", 0⟩, ⟨"Alice", "nsubj", "NOUN", 0⟩,
      ⟨"Bob", "dobj", "NOUN", 0⟩]) "t" _ (by decide)⟩

/-- C8 (corrected): producing the render payload does mutate the consumed
graph, but only by writing the `__safe_id__` annotation on each node: the
node keys (in order), every other node attribute (`label`, `type`, `size`),
and the edge list with all edge attributes are unchanged; an empty graph is
returned untouched. -/
theorem C8_mutation_scope (g : KGraph) (h : String → Nat → Nat) :
    (payloadGraph h g).edges = g.edges ∧
      List.Forall₂ (fun a b : String × NodeData =>
          b.1 = a.1 ∧ b.2.label = a.2.label ∧ b.2.type = a.2.type ∧
            b.2.size = a.2.size)
        g.nodes (payloadGraph h g).nodes := by
  unfold payloadGraph make_agraph_payload
  split
  · exact ⟨rfl, List.forall₂_same.mpr (fun x _ => ⟨rfl, rfl, rfl, rfl⟩)⟩
  · refine ⟨rfl, ?_⟩
    show List.Forall₂ _ g.nodes (sanitizeNodes h g.nodes []).2
    generalize g.nodes = l
    generalize ([] : List String) = seen
    induction l generalizing seen with
    | nil => exact List.Forall₂.nil
    | cons p rest ih =>
      exact List.Forall₂.cons ⟨rfl, rfl, rfl, rfl⟩ (ih _)

/-- C8 counterexample: sanitizing a one-node graph changes the graph — the
node's attribute dict gains `__safe_id__` — so the KnowledgeGraph is not left
equal to what it was before the call. -/
theorem C8_counterexample :
    payloadGraph (fun _ _ => 0) ⟨[("A", emptyNodeData)], []⟩ ≠
      ⟨[("A", emptyNodeData)], []⟩ := by decide

/-! ### Helper lemmas about unordered pair matching and edge updates -/

theorem matchesPair_iff (u v a b : String) :
    matchesPair u v a b = true ↔ ((u = a ∧ v = b) ∨ (u = b ∧ v = a)) := by
  simp [matchesPair, Bool.or_eq_true, Bool.and_eq_true, beq_iff_eq]

theorem matchesPair_congr (u v a b : String) (h : matchesPair u v a b = true)
    (x y : String) : matchesPair x y u v = matchesPair x y a b := by
  rcases (matchesPair_iff u v a b).mp h with ⟨rfl, rfl⟩ | ⟨rfl, rfl⟩
  · rfl
  · simp [matchesPair, Bool.or_comm]

theorem matchesPair_of_both (x y u v a b : String)
    (h1 : matchesPair x y u v = true) (h2 : matchesPair x y a b = true) :
    matchesPair u v a b = true := by
  apply (matchesPair_iff u v a b).mpr
  rcases (matchesPair_iff x y u v).mp h1 with ⟨h3, h4⟩ | ⟨h3, h4⟩ <;>
    rcases (matchesPair_iff x y a b).mp h2 with ⟨h5, h6⟩ | ⟨h5, h6⟩ <;>
      subst h3 <;> subst h4 <;> subst h5 <;>
        first
          | exact Or.inl ⟨rfl, h6.symm ▸ rfl⟩
          | exact Or.inr ⟨rfl, h6.symm ▸ rfl⟩
          | exact Or.inl ⟨h6 ▸ rfl, rfl⟩
          | exact Or.inr ⟨h6 ▸ rfl, rfl⟩

theorem addEdge_filter_spec (edges : List (String × String × EdgeData))
    (u v a b : String) (d : EdgeData)
    (hlen : (edges.filter (fun e => matchesPair e.1 e.2.1 a b)).length ≤ 1) :
    ((addEdge edges u v d).filter (fun e => matchesPair e.1 e.2.1 a b)).length ≤ 1 ∧
      ((addEdge edges u v d).filter
          (fun e => matchesPair e.1 e.2.1 a b)).map (fun e => e.2.2.label) =
        (if matchesPair u v a b then [d.label]
         else (edges.filter
            (fun e => matchesPair e.1 e.2.1 a b)).map (fun e => e.2.2.label)) := by
  unfold addEdge
  split
  case isTrue hany =>
    have hfm : ((edges.map (fun e =>
        if matchesPair e.1 e.2.1 u v then (e.1, e.2.1, d) else e)).filter
          (fun e => matchesPair e.1 e.2.1 a b)) =
        (edges.filter (fun e => matchesPair e.1 e.2.1 a b)).map
          (fun e => if matchesPair e.1 e.2.1 u v then (e.1, e.2.1, d) else e) := by
      rw [List.filter_map]
      congr 1
      apply List.filter_congr
      intro e _
      simp only [Function.comp]
      split <;> rfl
    rw [hfm]
    cases hm : matchesPair u v a b with
    | true =>
      obtain ⟨e0, he0, hm0⟩ := List.any_eq_true.mp hany
      have he0ab : matchesPair e0.1 e0.2.1 a b = true := by
        rw [← matchesPair_congr u v a b hm]; exact hm0
      have he0f : e0 ∈ edges.filter (fun e => matchesPair e.1 e.2.1 a b) :=
        List.mem_filter.mpr ⟨he0, he0ab⟩
      cases hfe : edges.filter (fun e => matchesPair e.1 e.2.1 a b) with
      | nil => rw [hfe] at he0f; simp at he0f
      | cons e1 tl =>
        have htl : tl = [] := by
          rw [hfe] at hlen
          simp only [List.length_cons] at hlen
          have : tl.length = 0 := by omega
          exact List.length_eq_zero.mp this
        subst htl
        have he1 : matchesPair e1.1 e1.2.1 a b = true := by
          have := List.mem_filter.mp (hfe ▸ List.mem_cons_self e1 [])
          exact this.2
        have he1uv : matchesPair e1.1 e1.2.1 u v = true := by
          rw [matchesPair_congr u v a b hm]; exact he1
        refine ⟨by simp, ?_⟩
        simp [he1uv]
    | false =>
      have hid : ∀ e ∈ edges.filter (fun e => matchesPair e.1 e.2.1 a b),
          (if matchesPair e.1 e.2.1 u v then (e.1, e.2.1, d) else e) = e := by
        intro e he
        have heab := (List.mem_filter.mp he).2
        cases huv : matchesPair e.1 e.2.1 u v with
        | true =>
          have := matchesPair_of_both e.1 e.2.1 u v a b huv heab
          rw [this] at hm
          exact absurd hm (by simp)
        | false => simp
      have hmap : (edges.filter (fun e => matchesPair e.1 e.2.1 a b)).map
          (fun e => if matchesPair e.1 e.2.1 u v then (e.1, e.2.1, d) else e) =
          edges.filter (fun e => matchesPair e.1 e.2.1 a b) := by
        rw [List.map_congr_left hid]
        simp
      rw [hmap]
      exact ⟨hlen, by simp⟩
  case isFalse hany =>
    rw [List.filter_append]
    cases hm : matchesPair u v a b with
    | true =>
      have hnil : edges.filter (fun e => matchesPair e.1 e.2.1 a b) = [] := by
        rw [List.filter_eq_nil_iff]
        intro e he
        intro heab
        have heuv : matchesPair e.1 e.2.1 u v = true := by
          rw [matchesPair_congr u v a b hm]; exact heab
        have : edges.any (fun e => matchesPair e.1 e.2.1 u v) = true :=
          List.any_eq_true.mpr ⟨e, he, heuv⟩
        exact hany this
      rw [hnil]
      simp [List.filter, hm]
    | false =>
      have hnil2 : List.filter (fun e => matchesPair e.1 e.2.1 a b) [(u, v, d)] = [] := by
        simp [List.filter, hm]
      rw [hnil2, List.append_nil]
      exact ⟨hlen, by simp⟩


theorem relPhase_edges (a b : String) (rels : List RelTriple)
    (acc : List (String × NodeData) × List (String × String × EdgeData))
    (hlen : (acc.2.filter (fun e => matchesPair e.1 e.2.1 a b)).length ≤ 1) :
    ((rels.foldl addRelStep acc).2.filter
        (fun e => matchesPair e.1 e.2.1 a b)).length ≤ 1 ∧
      ((rels.foldl addRelStep acc).2.filter
          (fun e => matchesPair e.1 e.2.1 a b)).map (fun e => e.2.2.label) =
        (((relsFor rels a b).getLast?.map (fun r => [some r.predicate])).getD
          ((acc.2.filter
            (fun e => matchesPair e.1 e.2.1 a b)).map (fun e => e.2.2.label))) := by
  induction rels generalizing acc with
  | nil => exact ⟨hlen, rfl⟩
  | cons r rels ih =>
    rw [List.foldl_cons]
    have hstep := addEdge_filter_spec acc.2 r.subject r.object a b
      ⟨some r.predicate, some "relationship"⟩ hlen
    obtain ⟨h1, h2⟩ := ih (addRelStep acc r) hstep.1
    refine ⟨h1, ?_⟩
    rw [h2]
    cases hm : matchesPair r.subject r.object a b with
    | true =>
      have hrf : relsFor (r :: rels) a b = r :: relsFor rels a b := by
        simp [relsFor, List.filter_cons, hm]
      rw [hrf]
      cases hl : (relsFor rels a b).getLast? with
      | some s =>
        have hcons : (r :: relsFor rels a b).getLast? = some s := by
          cases hrf2 : relsFor rels a b with
          | nil => rw [hrf2] at hl; simp at hl
          | cons x xs =>
            rw [hrf2] at hl
            rw [List.getLast?_cons_cons]
            exact hl
        rw [hcons]
        simp
      | none =>
        have hnil : relsFor rels a b = [] := by
          cases hrf2 : relsFor rels a b with
          | nil => rfl
          | cons x xs => rw [hrf2] at hl; exact absurd hl (by simp)
        rw [hnil]
        simp only [Option.map_none', Option.getD_none, List.getLast?_singleton,
          Option.map_some', Option.getD_some]
        have hedge : (addRelStep acc r).2 =
            addEdge acc.2 r.subject r.object ⟨some r.predicate, some "relationship"⟩ := rfl
        rw [hedge, hstep.2]
        simp [hm]
    | false =>
      have hrf : relsFor (r :: rels) a b = relsFor rels a b := by
        simp [relsFor, List.filter_cons, hm]
      rw [hrf]
      cases hl : (relsFor rels a b).getLast? with
      | some s => simp
      | none =>
        simp only [Option.map_none', Option.getD_none]
        have hedge : (addRelStep acc r).2 =
            addEdge acc.2 r.subject r.object ⟨some r.predicate, some "relationship"⟩ := rfl
        rw [hedge, hstep.2]
        simp [hm]

/-! ### Claim theorems: C7, C10 -/

/-- C7 (confirmed): when two or more triples in the relationship sequence
share the same unordered subject/object pair, `build_graph` produces exactly
one stored edge for that pair, and its label is the predicate of the last
such triple (networkx `add_edge` overwrites the attribute dict of an existing
edge; no label aggregation). -/
theorem C7_last_write_wins (es : List EntitySpan) (rels : List RelTriple)
    (a b : String) (hcount : 2 ≤ (relsFor rels a b).length) :
    (edgeEntriesFor (build_graph es rels) a b).length = 1 ∧
      (edgeEntriesFor (build_graph es rels) a b).map (fun e => e.2.2.label) =
        [((relsFor rels a b).getLast?).map (fun r => r.predicate)] := by
  obtain ⟨r, hr⟩ : ∃ r, (relsFor rels a b).getLast? = some r := by
    cases hl : (relsFor rels a b).getLast? with
    | none =>
      cases hrf : relsFor rels a b with
      | nil => rw [hrf] at hcount; simp at hcount
      | cons x xs => rw [hrf] at hl; exact absurd hl (by simp)
    | some r => exact ⟨r, rfl⟩
  have hmain := relPhase_edges a b rels (es.foldl addEntityNode [], []) (by simp)
  rw [hr] at hmain
  simp only [Option.map_some', Option.getD_some] at hmain
  have hdef : edgeEntriesFor (build_graph es rels) a b =
      ((rels.foldl addRelStep (es.foldl addEntityNode [], [])).2).filter
        (fun e => matchesPair e.1 e.2.1 a b) := rfl
  constructor
  · have := congrArg List.length hmain.2
    simp only [List.length_map, List.length_singleton] at this
    rw [hdef]
    exact this
  · rw [hdef, hmain.2, hr]
    rfl

/-- C7 witness: two triples on the unordered pair {a, b} with predicates
"p1" then "p2" leave a single edge labelled "p2". -/
theorem C7_witness :
    2 ≤ (relsFor [⟨"a", "p1", "b", "SVO"⟩, ⟨"b", "p2", "a", "SVO"⟩] "a" "b").length ∧
      ((edgeEntriesFor (build_graph []
            [⟨"a", "p1", "b", "SVO"⟩, ⟨"b", "p2", "a", "SVO"⟩]) "a" "b").length = 1 ∧
        (edgeEntriesFor (build_graph []
            [⟨"a", "p1", "b", "SVO"⟩, ⟨"b", "p2", "a", "SVO"⟩]) "a" "b").map
            (fun e => e.2.2.label) =
          [((relsFor [⟨"a", "p1", "b", "SVO"⟩, ⟨"b", "p2", "a", "SVO"⟩] "a" "b").getLast?).map
            (fun r => r.predicate)]) :=
  ⟨by decide, C7_last_write_wins [] _ "a" "b" (by decide)⟩

/-- C10 (confirmed): when both PDF extraction backends fail,
`extract_text_from_pdf` returns the failure indicator `none` and the stored
text is left unchanged (the `self.text` assignment is never reached), so text
from a previously processed document remains in place. -/
theorem C10_pdf_double_failure {α : Type} (plumber pypdf2 : α → Option String)
    (self : GenState) (f : α) (h1 : plumber f = none) (h2 : pypdf2 f = none) :
    (extract_text_from_pdf plumber pypdf2 self f).1 = none ∧
      (extract_text_from_pdf plumber pypdf2 self f).2.text = self.text := by
  unfold extract_text_from_pdf
  rw [h1, h2]
  exact ⟨rfl, rfl⟩

/-- C10 witness: both backends fail on a concrete state holding text "old";
the call returns `none` and the stored text is still "old". -/
theorem C10_witness :
    (fun _ : Unit => (none : Option String)) () = none ∧
      ((extract_text_from_pdf (fun _ : Unit => none) (fun _ => none)
          ⟨"old", [], [], [], ⟨[], []⟩⟩ ()).1 = none ∧
        (extract_text_from_pdf (fun _ : Unit => none) (fun _ => none)
          ⟨"old", [], [], [], ⟨[], []⟩⟩ ()).2.text = "old") :=
  ⟨rfl, C10_pdf_double_failure (fun _ : Unit => none) (fun _ => none)
    ⟨"old", [], [], [], ⟨[], []⟩⟩ () rfl rfl⟩

/-! ### Helper lemmas about the render sanitiser's node loop -/

theorem sanitizeNodes_safe_id_mem (h : String → Nat → Nat) :
    ∀ (l : List (String × NodeData)) (seen : List String)
      (p : String × NodeData), p ∈ (sanitizeNodes h l seen).2 →
      ∃ pn ∈ (sanitizeNodes h l seen).1, p.2.safe_id = some pn.id := by
  intro l
  induction l with
  | nil =>
    intro seen p hp
    simp [sanitizeNodes] at hp
  | cons q rest ih =>
    obtain ⟨n, d⟩ := q
    intro seen p hp
    simp only [sanitizeNodes] at hp ⊢
    rcases List.mem_cons.mp hp with rfl | hp2
    · exact ⟨_, List.mem_cons_self _ _, rfl⟩
    · obtain ⟨pn, hpn, hid⟩ := ih _ p hp2
      exact ⟨pn, List.mem_cons_of_mem _ hpn, hid⟩

theorem sanitizeNodes_ids_nodup (h : String → Nat → Nat) :
    ∀ (l : List (String × NodeData)) (seen : List String), seen.Nodup →
      freshRun h l seen = true →
      (seen ++ ((sanitizeNodes h l seen).1).map (fun p => p.id)).Nodup := by
  intro l
  induction l with
  | nil =>
    intro seen hs _
    simpa [sanitizeNodes] using hs
  | cons q rest ih =>
    obtain ⟨n, d⟩ := q
    intro seen hs hf
    simp only [sanitizeNodes, freshRun] at hf ⊢
    by_cases hc : safe_id n ∈ seen
    · rw [if_pos hc] at hf
      simp only [if_pos hc]
      simp only [Bool.and_eq_true] at hf
      obtain ⟨hfr, hrest⟩ := hf
      have hnot : (safe_id n ++ "_" ++
          toString (h (safe_id n) seen.length % 65536)) ∉ seen := by
        simpa using hfr
      rw [if_neg hnot]
      simp only [List.map_cons]
      rw [List.append_cons]
      apply ih
      · simp [List.nodup_append, hs, hnot]
      · exact hrest
    · rw [if_neg hc] at hf
      simp only [if_neg hc]
      simp only [List.map_cons]
      rw [List.append_cons]
      apply ih
      · simp [List.nodup_append, hs, hc]
      · exact hf

theorem payload_edge_inv (ns : List (String × NodeData)) (pns : List PNode)
    (hmem : ∀ p ∈ ns, ∃ pn ∈ pns, p.2.safe_id = some pn.id)
    (ed : String × String × EdgeData) (e : PEdge)
    (hsome :
      (if isFalsyOptStr ((ns.find? (fun p => p.1 == ed.1)).bind (fun p => p.2.safe_id)) ||
          isFalsyOptStr ((ns.find? (fun p => p.1 == ed.2.1)).bind (fun p => p.2.safe_id)) ||
          ((ns.find? (fun p => p.1 == ed.1)).bind (fun p => p.2.safe_id) ==
            (ns.find? (fun p => p.1 == ed.2.1)).bind (fun p => p.2.safe_id)) then none
       else
        match (ns.find? (fun p => p.1 == ed.1)).bind (fun p => p.2.safe_id),
            (ns.find? (fun p => p.1 == ed.2.1)).bind (fun p => p.2.safe_id) with
        | some a, some b =>
          some ⟨a, b, safe_label (ed.2.2.label.getD ""), "#666666"⟩
        | _, _ => none) = some e) :
    e.source ≠ e.target ∧ e.source ∈ pns.map (fun p => p.id) ∧
      e.target ∈ pns.map (fun p => p.id) := by
  rcases hsu : (ns.find? (fun p => p.1 == ed.1)).bind (fun p => p.2.safe_id) with _ | a
  · rw [hsu] at hsome
    simp [isFalsyOptStr] at hsome
  · rcases hsv : (ns.find? (fun p => p.1 == ed.2.1)).bind (fun p => p.2.safe_id) with _ | b
    · rw [hsu, hsv] at hsome
      simp [isFalsyOptStr] at hsome
    · rw [hsu, hsv] at hsome
      split at hsome
      · exact absurd hsome (by simp)
      case isFalse hguard =>
        simp only [isFalsyOptStr, Bool.or_eq_true, beq_iff_eq, not_or,
          Option.some.injEq] at hguard
        injection hsome with hsome
        subst hsome
        obtain ⟨pa, hfa, hida⟩ := Option.bind_eq_some.mp hsu
        obtain ⟨pb, hfb, hidb⟩ := Option.bind_eq_some.mp hsv
        obtain ⟨pna, hpna, hna⟩ := hmem pa (List.mem_of_find?_eq_some hfa)
        obtain ⟨pnb, hpnb, hnb⟩ := hmem pb (List.mem_of_find?_eq_some hfb)
        rw [hida] at hna
        rw [hidb] at hnb
        injection hna with hna
        injection hnb with hnb
        exact ⟨hguard.2, List.mem_map.mpr ⟨pna, hpna, hna.symm⟩,
          List.mem_map.mpr ⟨pnb, hpnb, hnb.symm⟩⟩

theorem sanitizeNodes_hash_free (h1 h2 : String → Nat → Nat) :
    ∀ (l : List (String × NodeData)) (seen : List String),
      (seen ++ l.map (fun p => safe_id p.1)).Nodup →
      sanitizeNodes h1 l seen = sanitizeNodes h2 l seen := by
  intro l
  induction l with
  | nil => intro seen _; rfl
  | cons q rest ih =>
    obtain ⟨n, d⟩ := q
    intro seen hnd
    have hc : safe_id n ∉ seen := by
      intro hmemseen
      have hdisj := List.disjoint_of_nodup_append hnd
      exact hdisj hmemseen (by simp)
    simp only [sanitizeNodes]
    simp only [if_neg hc]
    rw [ih (seen ++ [safe_id n]) ?_]
    simp only [List.map_cons] at hnd
    rw [List.append_cons] at hnd
    exact hnd

/-! ### Claim theorems: C2, C3 -/

/-- C2 (corrected): for every KnowledgeGraph and hash function, the payload
never contains a self-loop edge and every edge endpoint identifier occurs in
the payload node identifiers; the node identifiers are pairwise distinct
**provided** every hash-disambiguated identifier is fresh (`freshRun`) — the
code never re-checks the suffixed identifier against `seen_ids`, so colliding
hash values can produce duplicate identifiers. -/
theorem C2_sanitizer_guarantees (g : KGraph) (h : String → Nat → Nat) :
    (∀ e ∈ payloadEdges h g, e.source ≠ e.target ∧
        e.source ∈ payloadIds h g ∧ e.target ∈ payloadIds h g) ∧
      (freshRun h g.nodes [] = true → (payloadIds h g).Nodup) := by
  by_cases hempty : g.nodes.length = 0
  · constructor
    · intro e he
      simp [payloadEdges, make_agraph_payload, hempty] at he
    · intro _
      simp [payloadIds, payloadNodes, make_agraph_payload, hempty]
  · have hids : payloadIds h g =
        ((sanitizeNodes h g.nodes []).1).map (fun p => p.id) := by
      simp [payloadIds, payloadNodes, make_agraph_payload, hempty]
    constructor
    · intro e he
      unfold payloadEdges make_agraph_payload at he
      rw [if_neg hempty] at he
      simp only [List.mem_filterMap] at he
      obtain ⟨ed, hed, hsome⟩ := he
      rw [hids]
      exact payload_edge_inv _ _ (sanitizeNodes_safe_id_mem h g.nodes []) ed e hsome
    · intro hfr
      rw [hids]
      have hmain := sanitizeNodes_ids_nodup h g.nodes [] (by simp) hfr
      simpa using hmain

/-- C2 counterexample: with node keys "A_5", "A", " A" and hash value 5, the
third node's disambiguated identifier "A_5" duplicates the first node's
identifier — the claimed pairwise distinctness fails. -/
theorem C2_counterexample :
    ¬ (payloadIds (fun _ _ => 5)
        ⟨[("A_5", emptyNodeData), ("A", emptyNodeData), (" A", emptyNodeData)],
          []⟩).Nodup := by decide

/-- C2 witness: a concrete two-node one-edge graph on which the theorem's
hypotheses hold and yield the guarantees. -/
theorem C2_witness :
    ((⟨"a", "b", "knows", "#666666"⟩ : PEdge) ∈
        payloadEdges (fun _ _ => 0)
          ⟨[("a", emptyNodeData), ("b", emptyNodeData)],
            [("a", "b", ⟨some "knows", some "relationship"⟩)]⟩ ∧
      freshRun (fun _ _ => 0)
        (KGraph.mk [("a", emptyNodeData), ("b", emptyNodeData)]
          [("a", "b", ⟨some "knows", some "relationship"⟩)]).nodes [] = true) ∧
      (((⟨"a", "b", "knows", "#666666"⟩ : PEdge).source ≠
          (⟨"a", "b", "knows", "#666666"⟩ : PEdge).target ∧
        (⟨"a", "b", "knows", "#666666"⟩ : PEdge).source ∈
          payloadIds (fun _ _ => 0)
            ⟨[("a", emptyNodeData), ("b", emptyNodeData)],
              [("a", "b", ⟨some "knows", some "relationship"⟩)]⟩ ∧
        (⟨"a", "b", "knows", "#666666"⟩ : PEdge).target ∈
          payloadIds (fun _ _ => 0)
            ⟨[("a", emptyNodeData), ("b", emptyNodeData)],
              [("a", "b", ⟨some "knows", some "relationship"⟩)]⟩) ∧
        (payloadIds (fun _ _ => 0)
          ⟨[("a", emptyNodeData), ("b", emptyNodeData)],
            [("a", "b", ⟨some "knows", some "relationship"⟩)]⟩).Nodup) :=
  ⟨⟨by decide, by decide⟩,
    (C2_sanitizer_guarantees
        ⟨[("a", emptyNodeData), ("b", emptyNodeData)],
          [("a", "b", ⟨some "knows", some "relationship"⟩)]⟩
        (fun _ _ => 0)).1 _ (by decide),
    (C2_sanitizer_guarantees
        ⟨[("a", emptyNodeData), ("b", emptyNodeData)],
          [("a", "b", ⟨some "knows", some "relationship"⟩)]⟩
        (fun _ _ => 0)).2 (by decide)⟩

/-- C3 (corrected): identifier assignment is deterministic only relative to
the process's hash function.  When no `_safe_id_`-level collision occurs, the
payload is independent of the hash function entirely (so any two runs agree);
but on a collision the identifier embeds a value of Python's per-process
salted `hash`, so runs in different interpreter processes can disagree
(see the counterexample). -/
theorem C3_hash_function_independent (g : KGraph)
    (h1 h2 : String → Nat → Nat)
    (hnc : (g.nodes.map (fun p => safe_id p.1)).Nodup) :
    make_agraph_payload h1 g = make_agraph_payload h2 g := by
  unfold make_agraph_payload
  by_cases hempty : g.nodes.length = 0
  · rw [if_pos hempty, if_pos hempty]
  · rw [if_neg hempty, if_neg hempty,
      sanitizeNodes_hash_free h1 h2 g.nodes [] (by simpa using hnc)]

/-- C3 counterexample: on a graph whose two node keys "A" and " A" collide at
the same safe identifier, two hash functions (modelling two interpreter
processes with different hash salts) produce different payloads. -/
theorem C3_counterexample :
    make_agraph_payload (fun _ _ => 0)
        ⟨[("A", emptyNodeData), (" A", emptyNodeData)], []⟩ ≠
      make_agraph_payload (fun _ _ => 1)
        ⟨[("A", emptyNodeData), (" A", emptyNodeData)], []⟩ := by decide

/-- C3 witness: a collision-free one-node graph satisfies the hypothesis and
its payload is the same under two different hash functions. -/
theorem C3_witness :
    (((KGraph.mk [("A", emptyNodeData)] []).nodes.map
        (fun p => safe_id p.1)).Nodup) ∧
      make_agraph_payload (fun _ _ => 0) ⟨[("A", emptyNodeData)], []⟩ =
        make_agraph_payload (fun _ _ => 1) ⟨[("A", emptyNodeData)], []⟩ :=
  ⟨by decide, C3_hash_function_independent ⟨[("A", emptyNodeData)], []⟩
    (fun _ _ => 0) (fun _ _ => 1) (by decide)⟩

/-! ### Helper lemmas for the keyword extractor -/

theorem mem_insertDesc (cnt : String → Nat) (w a : String) (l : List String) :
    a ∈ insertDesc cnt w l ↔ a = w ∨ a ∈ l := by
  induction l with
  | nil => simp [insertDesc]
  | cons x xs ih =>
    simp only [insertDesc]
    split
    · simp only [List.mem_cons, ih]
      tauto
    · simp only [List.mem_cons]

theorem insertDesc_sorted (cnt : String → Nat) (w : String) (l : List String)
    (hl : l.Pairwise (fun a b => cnt b ≤ cnt a)) :
    (insertDesc cnt w l).Pairwise (fun a b => cnt b ≤ cnt a) := by
  induction l with
  | nil => simp [insertDesc]
  | cons x xs ih =>
    obtain ⟨hx, hxs⟩ := List.pairwise_cons.mp hl
    simp only [insertDesc]
    split
    case isTrue hlt =>
      apply List.pairwise_cons.mpr
      refine ⟨?_, ih hxs⟩
      intro b hb
      rcases (mem_insertDesc cnt w b xs).mp hb with rfl | hbxs
      · exact Nat.le_of_lt hlt
      · exact hx b hbxs
    case isFalse hge =>
      apply List.pairwise_cons.mpr
      refine ⟨?_, hl⟩
      intro b hb
      rcases List.mem_cons.mp hb with rfl | hbxs
      · exact Nat.le_of_not_lt hge
      · exact Nat.le_trans (hx b hbxs) (Nat.le_of_not_lt hge)

theorem sortDescBy_sorted (cnt : String → Nat) (l : List String) :
    (sortDescBy cnt l).Pairwise (fun a b => cnt b ≤ cnt a) := by
  induction l with
  | nil => simp [sortDescBy]
  | cons x xs ih => exact insertDesc_sorted cnt x (sortDescBy cnt xs) ih

theorem mem_sortDescBy (cnt : String → Nat) (a : String) (l : List String) :
    a ∈ sortDescBy cnt l ↔ a ∈ l := by
  induction l with
  | nil => simp [sortDescBy]
  | cons x xs ih =>
    show a ∈ insertDesc cnt x (sortDescBy cnt xs) ↔ _
    rw [mem_insertDesc, ih, List.mem_cons]

theorem mem_counterKeys (w : String) (l : List String) :
    w ∈ counterKeys l ↔ w ∈ l := by
  have haux : ∀ (m : List String) (acc : List String),
      w ∈ m.foldl (fun acc w => if w ∈ acc then acc else acc ++ [w]) acc ↔
        w ∈ acc ∨ w ∈ m := by
    intro m
    induction m with
    | nil => intro acc; simp
    | cons x xs ih =>
      intro acc
      rw [List.foldl_cons, ih]
      by_cases hx : x ∈ acc
      · rw [if_pos hx]
        constructor
        · rintro (h | h)
          · exact Or.inl h
          · exact Or.inr (List.mem_cons_of_mem x h)
        · rintro (h | h)
          · exact Or.inl h
          · rcases List.mem_cons.mp h with rfl | h2
            · exact Or.inl hx
            · exact Or.inr h2
      · rw [if_neg hx]
        constructor
        · rintro (h | h)
          · rcases List.mem_append.mp h with h2 | h2
            · exact Or.inl h2
            · have : w = x := by simpa using h2
              subst this
              exact Or.inr (List.mem_cons_self w xs)
          · exact Or.inr (List.mem_cons_of_mem x h)
        · rintro (h | h)
          · exact Or.inl (List.mem_append.mpr (Or.inl h))
          · rcases List.mem_cons.mp h with rfl | h2
            · exact Or.inl (List.mem_append.mpr (Or.inr (by simp)))
            · exact Or.inr h2
  simpa [counterKeys] using haux l []

/-! ### Claim theorem: C9 -/

/-- C9 (confirmed): for every non-empty text, tokenizer, stopword list and
`topK`, the Keyword Extractor returns at most `topK` keywords, each an
alphanumeric token of the lowered text, longer than 3 characters and not a
stopword, ordered by descending frequency among the filtered tokens; and in
the concrete scenario with "test" occurring 3 times and "document" once, the
output is `["test", "document"]`, so "test" ranks ahead of "document". -/
theorem C9_keyword_extractor :
    (∀ (tokenize : String → List String) (stop : List String) (text : String)
        (k : Nat), text ≠ "" →
      (extract_keywords tokenize stop text k).length ≤ k ∧
        (∀ w ∈ extract_keywords tokenize stop text k,
          w ∈ tokenize (pyLower text) ∧ pyIsAlnum w = true ∧ w ∉ stop ∧
            3 < w.length) ∧
        (extract_keywords tokenize stop text k).Pairwise
          (fun a b => (kwWords tokenize stop text).count b ≤
            (kwWords tokenize stop text).count a)) ∧
      extract_keywords (fun _ => ["test", "document", "test", "test"]) []
        "test document test test" 50 = ["test", "document"] := by
  constructor
  · intro tokenize stop text k htext
    have hek : extract_keywords tokenize stop text k =
        (sortDescBy (fun w => (kwWords tokenize stop text).count w)
          (counterKeys (kwWords tokenize stop text))).take k := by
      unfold extract_keywords
      rw [if_neg htext]
    refine ⟨?_, ?_, ?_⟩
    · rw [hek]
      exact List.length_take_le k _
    · intro w hw
      rw [hek] at hw
      have hw2 := List.mem_of_mem_take hw
      rw [mem_sortDescBy, mem_counterKeys] at hw2
      unfold kwWords at hw2
      obtain ⟨hmem, hprop⟩ := List.mem_filter.mp hw2
      simp only [Bool.and_eq_true, Bool.not_eq_true', decide_eq_true_eq,
        decide_eq_false_iff_not] at hprop
      exact ⟨hmem, hprop.1.1, hprop.1.2, hprop.2⟩
    · rw [hek]
      exact List.Pairwise.sublist (List.take_sublist k _) (sortDescBy_sorted _ _)
  · decide

/-- C9 witness: the general part applies at a concrete non-empty text. -/
theorem C9_witness :
    ("x" : String) ≠ "" ∧
      (extract_keywords (fun _ => ["test", "word"]) [] "x" 1).length ≤ 1 :=
  ⟨by decide,
    (C9_keyword_extractor.1 (fun _ => ["test", "word"]) [] "x" 1 (by decide)).1⟩

/-! ### Helper lemmas for Text Normalizer idempotence -/

theorem cw_cons_nonspace (c : Char) (t : List Char) (h : isPySpace c = false) :
    collapseWS (c :: t) = c :: collapseWS t := by
  cases t with
  | nil => simp [collapseWS, h]
  | cons d cs => simp [collapseWS, h]

theorem cw_append_word (w t : List Char)
    (hw : ∀ c ∈ w, isPySpace c = false) :
    collapseWS (w ++ t) = w ++ collapseWS t := by
  induction w with
  | nil => simp
  | cons c w2 ih =>
    rw [List.cons_append, cw_cons_nonspace c _ (hw c (List.mem_cons_self c w2)),
      ih (fun d hd => hw d (List.mem_cons_of_mem c hd))]
    rfl

theorem cw_space_nonspace (c d : Char) (cs : List Char)
    (hc : isPySpace c = true) (hd : isPySpace d = false) :
    collapseWS (c :: d :: cs) = ' ' :: collapseWS (d :: cs) := by
  simp [collapseWS, hc, hd]

theorem splitAux_spec : ∀ (l acc : List Char),
    (∀ c ∈ acc, isPySpace c = false) →
    ∀ w ∈ splitAux l acc,
      w ≠ [] ∧ ∀ c ∈ w, isPySpace c = false ∧ (c ∈ l ∨ c ∈ acc) := by
  intro l
  induction l with
  | nil =>
    intro acc hacc w hw
    cases acc with
    | nil => simp [splitAux] at hw
    | cons a as =>
      have hw2 : w = (a :: as).reverse := by simpa [splitAux] using hw
      subst hw2
      refine ⟨by simp, fun c hc => ?_⟩
      have hca : c ∈ a :: as := List.mem_reverse.mp hc
      exact ⟨hacc c hca, Or.inr hca⟩
  | cons c cs ih =>
    intro acc hacc w hw
    cases hc : isPySpace c with
    | true =>
      simp only [splitAux, hc, if_true] at hw
      cases acc with
      | nil =>
        simp only [List.isEmpty_nil, if_true] at hw
        obtain ⟨h1, h2⟩ := ih [] (by simp) w hw
        refine ⟨h1, fun d hd => ⟨(h2 d hd).1, ?_⟩⟩
        rcases (h2 d hd).2 with h | h
        · exact Or.inl (List.mem_cons_of_mem c h)
        · simp at h
      | cons a as =>
        simp only [List.isEmpty_cons, Bool.false_eq_true, if_false] at hw
        rcases List.mem_cons.mp hw with rfl | hw2
        · refine ⟨by simp, fun d hd => ?_⟩
          have hda : d ∈ a :: as := List.mem_reverse.mp hd
          exact ⟨hacc d hda, Or.inr hda⟩
        · obtain ⟨h1, h2⟩ := ih [] (by simp) w hw2
          refine ⟨h1, fun d hd => ⟨(h2 d hd).1, ?_⟩⟩
          rcases (h2 d hd).2 with h | h
          · exact Or.inl (List.mem_cons_of_mem c h)
          · simp at h
    | false =>
      simp only [splitAux, hc, Bool.false_eq_true, if_false] at hw
      have hacc2 : ∀ d ∈ c :: acc, isPySpace d = false := by
        intro d hd
        rcases List.mem_cons.mp hd with rfl | hd2
        · exact hc
        · exact hacc d hd2
      obtain ⟨h1, h2⟩ := ih (c :: acc) hacc2 w hw
      refine ⟨h1, fun d hd => ⟨(h2 d hd).1, ?_⟩⟩
      rcases (h2 d hd).2 with h | h
      · exact Or.inl (List.mem_cons_of_mem c h)
      · rcases List.mem_cons.mp h with rfl | hd2
        · exact Or.inl (List.mem_cons_self d cs)
        · exact Or.inr hd2

theorem pyWords_spec (m w : List Char) (hw : w ∈ pyWords m) :
    w ≠ [] ∧ ∀ c ∈ w, isPySpace c = false ∧ c ∈ m := by
  have hx := splitAux_spec m [] (by simp) w hw
  refine ⟨hx.1, fun c hc => ⟨(hx.2 c hc).1, ?_⟩⟩
  rcases (hx.2 c hc).2 with h | h
  · exact h
  · simp at h

theorem mem_joinWords : ∀ (ws : List (List Char)) (c : Char),
    c ∈ joinWords ws → c = ' ' ∨ ∃ w ∈ ws, c ∈ w := by
  intro ws
  induction ws with
  | nil =>
    intro c hc
    simp [joinWords] at hc
  | cons w tail ih =>
    intro c hc
    cases tail with
    | nil =>
      right
      exact ⟨w, by simp, by simpa [joinWords] using hc⟩
    | cons w2 ws2 =>
      rw [show joinWords (w :: w2 :: ws2) = w ++ ' ' :: joinWords (w2 :: ws2)
        from rfl] at hc
      rcases List.mem_append.mp hc with h | h
      · exact Or.inr ⟨w, by simp, h⟩
      · rcases List.mem_cons.mp h with rfl | h2
        · exact Or.inl rfl
        · rcases ih c h2 with h3 | ⟨w3, hw3, hcw3⟩
          · exact Or.inl h3
          · exact Or.inr ⟨w3, List.mem_cons_of_mem w hw3, hcw3⟩

theorem collapseWS_joinWords : ∀ ws : List (List Char),
    (∀ w ∈ ws, w ≠ []) → (∀ w ∈ ws, ∀ c ∈ w, isPySpace c = false) →
    collapseWS (joinWords ws) = joinWords ws := by
  intro ws
  induction ws with
  | nil => intro _ _; rfl
  | cons w tail ih =>
    intro hne hns
    cases tail with
    | nil =>
      show collapseWS (joinWords [w]) = joinWords [w]
      have hx := cw_append_word w []
        (fun c hc => hns w (List.mem_cons_self w []) c hc)
      simpa [collapseWS, joinWords] using hx
    | cons w2 ws2 =>
      show collapseWS (w ++ ' ' :: joinWords (w2 :: ws2)) =
        w ++ ' ' :: joinWords (w2 :: ws2)
      rw [cw_append_word w _ (fun c hc => hns w (List.mem_cons_self w _) c hc)]
      obtain ⟨e, t, hw2⟩ : ∃ e t, w2 = e :: t := by
        cases hw2c : w2 with
        | nil => exact absurd hw2c (hne w2 (by simp))
        | cons e t => exact ⟨e, t, rfl⟩
      obtain ⟨rest, hrest⟩ : ∃ rest, joinWords (w2 :: ws2) = e :: rest := by
        cases ws2 with
        | nil => exact ⟨t, by simp [joinWords, hw2]⟩
        | cons w3 ws3 =>
          exact ⟨t ++ ' ' :: joinWords (w3 :: ws3), by simp [joinWords, hw2]⟩
      have he : isPySpace e = false :=
        hns w2 (by simp) e (by simp [hw2])
      rw [hrest, cw_space_nonspace ' ' e rest rfl he, ← hrest,
        ih (fun x hx => hne x (List.mem_cons_of_mem w hx))
          (fun x hx => hns x (List.mem_cons_of_mem w hx))]

theorem sa_word : ∀ (w : List Char), (∀ c ∈ w, isPySpace c = false) →
    ∀ (l acc : List Char), splitAux (w ++ l) acc = splitAux l (w.reverse ++ acc) := by
  intro w
  induction w with
  | nil => intro _ l acc; simp
  | cons c w2 ih =>
    intro hw l acc
    have hc : isPySpace c = false := hw c (List.mem_cons_self c w2)
    rw [List.cons_append]
    show splitAux (c :: (w2 ++ l)) acc = _
    rw [show splitAux (c :: (w2 ++ l)) acc = splitAux (w2 ++ l) (c :: acc) by
      simp [splitAux, hc]]
    rw [ih (fun d hd => hw d (List.mem_cons_of_mem c hd)) l (c :: acc)]
    simp

theorem pyWords_joinWords : ∀ ws : List (List Char),
    (∀ w ∈ ws, w ≠ []) → (∀ w ∈ ws, ∀ c ∈ w, isPySpace c = false) →
    pyWords (joinWords ws) = ws := by
  intro ws
  induction ws with
  | nil => intro _ _; rfl
  | cons w tail ih =>
    intro hne hns
    cases tail with
    | nil =>
      show pyWords (joinWords [w]) = [w]
      have hj : joinWords [w] = w := rfl
      rw [hj]
      unfold pyWords
      have hsa := sa_word w (fun c hc => hns w (by simp) c hc) [] []
      rw [List.append_nil, List.append_nil] at hsa
      rw [hsa]
      have hwne : w ≠ [] := hne w (by simp)
      simp [splitAux, List.isEmpty_iff, hwne]
    | cons w2 ws2 =>
      show pyWords (w ++ ' ' :: joinWords (w2 :: ws2)) = w :: w2 :: ws2
      unfold pyWords
      rw [sa_word w (fun c hc => hns w (by simp) c hc) _ []]
      have hwne : w ≠ [] := hne w (by simp)
      rw [show splitAux (' ' :: joinWords (w2 :: ws2)) (w.reverse ++ []) =
          w :: splitAux (joinWords (w2 :: ws2)) [] by
        simp [splitAux, isPySpace, List.isEmpty_iff, hwne]]
      have hih := ih (fun x hx => hne x (List.mem_cons_of_mem w hx))
        (fun x hx => hns x (List.mem_cons_of_mem w hx))
      unfold pyWords at hih
      rw [hih]

theorem normalizeChars_idem (l : List Char) :
    normalizeChars (normalizeChars l) = normalizeChars l := by
  by_cases hl : l = []
  · subst hl; rfl
  · have hR : normalizeChars l =
        joinWords (pyWords ((collapseWS l).filter isKept)) := by
      unfold normalizeChars
      rw [if_neg hl]
    have hwne : ∀ w ∈ pyWords ((collapseWS l).filter isKept), w ≠ [] :=
      fun w hw => (pyWords_spec _ w hw).1
    have hwns : ∀ w ∈ pyWords ((collapseWS l).filter isKept),
        ∀ c ∈ w, isPySpace c = false :=
      fun w hw c hc => ((pyWords_spec _ w hw).2 c hc).1
    have hwk : ∀ w ∈ pyWords ((collapseWS l).filter isKept),
        ∀ c ∈ w, isKept c = true :=
      fun w hw c hc => List.of_mem_filter (((pyWords_spec _ w hw).2 c hc).2)
    rw [hR]
    by_cases hre : joinWords (pyWords ((collapseWS l).filter isKept)) = []
    · rw [hre]
      rw [hre] at hR
      rw [← hR]
      exact hR ▸ (by rfl : normalizeChars [] = [])
    · unfold normalizeChars
      rw [if_neg hre]
      rw [collapseWS_joinWords _ hwne hwns]
      have hfil : (joinWords (pyWords ((collapseWS l).filter isKept))).filter
          isKept = joinWords (pyWords ((collapseWS l).filter isKept)) := by
        rw [List.filter_eq_self]
        intro c hc
        rcases mem_joinWords _ c hc with rfl | ⟨w, hw, hcw⟩
        · rfl
        · exact hwk w hw c hcw
      rw [hfil, pyWords_joinWords _ hwne hwns]

/-! ### Claim theorem: C4 -/

/-- C4 (confirmed): the Text Normalizer is idempotent — normalizing an
already-normalized string changes nothing, for every input string. -/
theorem C4_normalizer_idempotent (s : String) :
    preprocess_text (preprocess_text s) = preprocess_text s := by
  unfold preprocess_text
  exact congrArg String.mk (normalizeChars_idem s.data)
